import Mathlib

/-!
Shallow embedding of `mp4/mediasegment.go` (package mp4 of eluv-io/mp4ff).

The aggregator `MediaSegment` and all of its methods (`AddSidx`,
`AddFragment`, `Size`, `Encode`, `EncodeSW`, `Info`, `Fragmentify`,
`CommonSampleDuration`) are translated from the Go source.  The box and
fragment collaborators (`StypBox`, `SidxBox`, `Fragment`, full samples,
the trex defaults box) are external to the source file and are modelled
from the specification as records of the results their capability set
can produce: a `size`, the byte sequence (or failure) that `Encode` /
`EncodeSW` writes, the outcome of `Info`, the full-sample extraction and
the per-fragment common-duration resolver.  Failures are `Except String`
values, mirroring Go `error` returns; the Go `uint32` / `uint64`
arithmetic is modelled on `Nat` with explicit reduction modulo `2 ^ 32`
(the `cumDur` accumulator of `Fragmentify`) and `2 ^ 64` (the `Size`
accumulator).
-/

set_option linter.unusedVariables false

/-- Decidable equality of `Except` results, used to compare modelled
method outcomes. -/
instance {ε α : Type} [DecidableEq ε] [DecidableEq α] : DecidableEq (Except ε α) :=
  fun a b =>
    match a, b with
    | .error e1, .error e2 =>
      if h : e1 = e2 then .isTrue (by rw [h])
      else .isFalse (fun hc => h (Except.error.injEq e1 e2 ▸ hc))
    | .error _, .ok _ => .isFalse (fun hc => Except.noConfusion hc)
    | .ok _, .error _ => .isFalse (fun hc => Except.noConfusion hc)
    | .ok a1, .ok a2 =>
      if h : a1 = a2 then .isTrue (by rw [h])
      else .isFalse (fun hc => h (Except.ok.injEq a1 a2 ▸ hc))

/-- Go `EncOptimize` enumeration: the encode-optimization strategy
(`OptimizeNone` / `OptimizeTrun`). -/
inductive EncOptimize where
  | optimizeNone
  | optimizeTrun
deriving DecidableEq, Repr

/-- Modelled from the spec: a fully resolved sample (duration, size,
flags, payload), opaque to the aggregator.  `Dur` is a Go `uint32`. -/
structure FullSample where
  Dur : Nat
  SampleSize : Nat
  Flags : Nat
  Data : List Nat
deriving DecidableEq, Repr

/-- Modelled from the spec: the track-defaults (trex) box; its contents
are opaque to this core, only presence/absence matters here. -/
structure TrexBox where
  TrackID : Nat
deriving DecidableEq, Repr

/-- Modelled from the spec: the segment-type (styp) box capability set,
recorded as the results of its `Size`, `Encode`, `EncodeSW` and `Info`
methods. -/
structure StypBox where
  BoxSize : Nat
  EncodeRes : Except String (List Nat)
  EncodeSWRes : Except String (List Nat)
  InfoRes : Except String Unit
deriving DecidableEq, Repr

/-- Modelled from the spec: a segment-index (sidx) box.  `Id` models Go
pointer identity (two distinct box instances get distinct ids). -/
structure SidxBox where
  Id : Nat
  BoxSize : Nat
  EncodeRes : Except String (List Nat)
  EncodeSWRes : Except String (List Nat)
  InfoRes : Except String Unit
deriving DecidableEq, Repr

/-- Go `TfhdBox`: only the track id is read by this core. -/
structure TfhdBox where
  TrackID : Nat
deriving DecidableEq, Repr

/-- Go `MfhdBox`: only the sequence number is read by this core. -/
structure MfhdBox where
  SequenceNumber : Nat
deriving DecidableEq, Repr

/-- Go `TrafBox`: only its `Tfhd` child is read by this core. -/
structure TrafBox where
  Tfhd : TfhdBox
deriving DecidableEq, Repr

/-- Go `MoofBox`: only `Mfhd` and (first) `Traf` are read by this core. -/
structure MoofBox where
  Mfhd : MfhdBox
  Traf : TrafBox
deriving DecidableEq, Repr

/-- An input fragment, consumed by the aggregator as an opaque
collaborator.  `Moof` mirrors the header fields the source reads;
the remaining fields are Modelled from the spec as the results of the
fragment capability set (`Size`, `Encode`, `EncodeSW`, `Info`,
`GetFullSamples`, `CommonSampleDuration`) together with the mutable
`EncOptimize` flag. -/
structure Fragment where
  Moof : MoofBox
  EncOptimize : EncOptimize
  BoxSize : Nat
  EncodeRes : Except String (List Nat)
  EncodeSWRes : Except String (List Nat)
  InfoRes : Except String Unit
  GetFullSamples : Option TrexBox → Except String (List FullSample)
  CommonSampleDuration : TrexBox → Except String Nat

/-- Modelled from the spec: an output fragment of `Fragmentify`, as
produced by `CreateFragment(seqNr, trackID)` and filled by
`AddFullSampleToTrack(sample, trackID)`; it records the constructor
arguments and the appended (sample, trackID) pairs in order. -/
structure OutFrag where
  SequenceNumber : Nat
  TrackID : Nat
  samples : List (FullSample × Nat)
deriving DecidableEq, Repr

/-- Go `MediaSegment`: an MP4 media segment with one or more fragments. -/
structure MediaSegment where
  Styp : Option StypBox
  Sidx : Option SidxBox
  SidxsByFrag : List (List SidxBox)
  Fragments : List Fragment
  EncOptimize : EncOptimize
  StartPos : Nat

/-- Modelled from the spec: `CreateStyp` builds a CMAF styp box; its
binary layout is out of scope, represented by a fixed 24-byte encoding. -/
def CreateStyp : StypBox :=
  { BoxSize := 24
    EncodeRes := .ok (List.replicate 24 0)
    EncodeSWRes := .ok (List.replicate 24 0)
    InfoRes := .ok () }

/-- Go `NewMediaSegment`: empty media segment with a CMAF styp box. -/
def NewMediaSegment : MediaSegment :=
  { Styp := some CreateStyp
    Sidx := none
    SidxsByFrag := []
    Fragments := []
    EncOptimize := .optimizeNone
    StartPos := 0 }

/-- Go `NewMediaSegmentWithStyp`: empty media segment with a given styp box. -/
def NewMediaSegmentWithStyp (styp : StypBox) : MediaSegment :=
  { Styp := some styp
    Sidx := none
    SidxsByFrag := []
    Fragments := []
    EncOptimize := .optimizeNone
    StartPos := 0 }

/-- Go `NewMediaSegmentWithoutStyp`: empty media segment with no styp box. -/
def NewMediaSegmentWithoutStyp : MediaSegment :=
  { Styp := none
    Sidx := none
    SidxsByFrag := []
    Fragments := []
    EncOptimize := .optimizeNone
    StartPos := 0 }

/-- Go `MediaSegment.AddSidx`: record the first sidx box ever added in
`Sidx`, extend `SidxsByFrag` with a fresh bucket when it currently has
exactly as many buckets as there are fragments, then append the box to
the bucket at index `len(Fragments)`. -/
def MediaSegment.AddSidx (s : MediaSegment) (sidx : SidxBox) : MediaSegment :=
  let s1 := match s.Sidx with
    | none => { s with Sidx := some sidx }
    | some _ => s
  let sbf := if s1.SidxsByFrag.length = s1.Fragments.length
    then s1.SidxsByFrag ++ [[]] else s1.SidxsByFrag
  { s1 with SidxsByFrag :=
      sbf.set s1.Fragments.length (sbf.getD s1.Fragments.length [] ++ [sidx]) }

/-- Go `MediaSegment.AddFragment`: append the fragment and, if the
bucket count fell behind the new fragment count, append an empty
bucket. -/
def MediaSegment.AddFragment (s : MediaSegment) (f : Fragment) : MediaSegment :=
  let frags := s.Fragments ++ [f]
  let sbf := if s.SidxsByFrag.length < frags.length
    then s.SidxsByFrag ++ [[]] else s.SidxsByFrag
  { s with Fragments := frags, SidxsByFrag := sbf }

/-- Go `MediaSegment.LastFragment`: the last fragment, or none. -/
def MediaSegment.LastFragment (s : MediaSegment) : Option Fragment :=
  if s.Fragments.length = 0 then none else s.Fragments.getLast?

/-- One call of the mutation interface: `AddSidx` or `AddFragment`. -/
inductive Op where
  | addSidx (b : SidxBox)
  | addFragment (f : Fragment)

/-- Apply a single mutation call to a segment. -/
def applyOp (s : MediaSegment) : Op → MediaSegment
  | .addSidx b => s.AddSidx b
  | .addFragment f => s.AddFragment f

/-- Apply a sequence of interleaved `AddSidx` / `AddFragment` calls. -/
def applyOps (s : MediaSegment) (ops : List Op) : MediaSegment :=
  ops.foldl applyOp s

/-- Go `uint64` addition: add and reduce modulo `2 ^ 64`. -/
def add64 (a b : Nat) : Nat := (a + b) % 2 ^ 64

/-- The fragment loop of Go `MediaSegment.Size`: for each fragment add
the sizes of the sidx boxes in its bucket, then the fragment size, with
`uint64` accumulator semantics.  Bucket `i` is reached by walking the
bucket list in step with the fragment list (Go indexes `SidxsByFrag[i]`). -/
def sizeLoop : List (List SidxBox) → List Fragment → Nat → Nat
  | _, [], acc => acc
  | buckets, f :: fs, acc =>
    sizeLoop buckets.tail fs
      (add64 ((buckets.headD []).foldl (fun a sx => add64 a sx.BoxSize) acc) f.BoxSize)

/-- Go `MediaSegment.Size`: styp size (if present), then per fragment
its bucket of sidx sizes followed by the fragment size. -/
def MediaSegment.Size (s : MediaSegment) : Nat :=
  sizeLoop s.SidxsByFrag s.Fragments
    (match s.Styp with
     | some st => add64 0 st.BoxSize
     | none => 0)

/-- The same traversal as `MediaSegment.Size` but as an unbounded `Nat`
sum (no `uint64` wrap-around); used to state absence of overflow. -/
def sizeNatLoop : List (List SidxBox) → List Fragment → Nat
  | _, [] => 0
  | buckets, f :: fs =>
    ((buckets.headD []).map SidxBox.BoxSize).sum + f.BoxSize + sizeNatLoop buckets.tail fs

/-- Unbounded total size of the traversal of `MediaSegment.Size`. -/
def MediaSegment.SizeNat (s : MediaSegment) : Nat :=
  (match s.Styp with
   | some st => st.BoxSize
   | none => 0) + sizeNatLoop s.SidxsByFrag s.Fragments

/-- Sequentially encode a list of boxes (given their per-box results):
first failure aborts, otherwise the written bytes are concatenated. -/
def encCat : List (Except String (List Nat)) → Except String (List Nat)
  | [] => .ok []
  | r :: rest =>
    match r with
    | .error e => .error e
    | .ok bs => (encCat rest).map (fun t => bs ++ t)

/-- The fragment loop shared by Go `MediaSegment.Encode` and
`MediaSegment.EncodeSW` (they differ only in which per-box encoder is
invoked): for each fragment, encode the sidx boxes of its bucket, set
the fragment optimization flag to the segment strategy, then encode the
fragment.  Returns the written bytes (or the first error) together with
the fragment list as left behind by the flag assignments. -/
def encodeLoop (opt : EncOptimize) (encS : SidxBox → Except String (List Nat))
    (encF : Fragment → Except String (List Nat)) :
    List (List SidxBox) → List Fragment → Except String (List Nat) × List Fragment
  | _, [] => (.ok [], [])
  | buckets, f :: fs =>
    match encCat ((buckets.headD []).map encS) with
    | .error e => (.error e, f :: fs)
    | .ok bs1 =>
      let f1 := { f with EncOptimize := opt }
      match encF f1 with
      | .error e => (.error e, f1 :: fs)
      | .ok bs2 =>
        let p := encodeLoop opt encS encF buckets.tail fs
        (p.1.map (fun bs3 => bs1 ++ bs2 ++ bs3), f1 :: p.2)

/-- Go `MediaSegment.Encode` (stream writer): returns the bytes written
(or the first error) and the segment state after the call (fragment
optimization flags are assigned in place in Go). -/
def MediaSegment.Encode (s : MediaSegment) :
    Except String (List Nat) × MediaSegment :=
  match s.Styp with
  | some st =>
    match st.EncodeRes with
    | .error e => (.error e, s)
    | .ok bs0 =>
      let p := encodeLoop s.EncOptimize SidxBox.EncodeRes Fragment.EncodeRes
        s.SidxsByFrag s.Fragments
      (p.1.map (fun bs => bs0 ++ bs), { s with Fragments := p.2 })
  | none =>
    let p := encodeLoop s.EncOptimize SidxBox.EncodeRes Fragment.EncodeRes
      s.SidxsByFrag s.Fragments
    (p.1, { s with Fragments := p.2 })

/-- Go `MediaSegment.EncodeSW` (slice writer): identical traversal to
`Encode`, using the slice-writer encoders. -/
def MediaSegment.EncodeSW (s : MediaSegment) :
    Except String (List Nat) × MediaSegment :=
  match s.Styp with
  | some st =>
    match st.EncodeSWRes with
    | .error e => (.error e, s)
    | .ok bs0 =>
      let p := encodeLoop s.EncOptimize SidxBox.EncodeSWRes Fragment.EncodeSWRes
        s.SidxsByFrag s.Fragments
      (p.1.map (fun bs => bs0 ++ bs), { s with Fragments := p.2 })
  | none =>
    let p := encodeLoop s.EncOptimize SidxBox.EncodeSWRes Fragment.EncodeSWRes
      s.SidxsByFrag s.Fragments
    (p.1, { s with Fragments := p.2 })

/-- Run a list of `Info` results in order, stopping at the first error. -/
def seqUnit : List (Except String Unit) → Except String Unit
  | [] => .ok ()
  | r :: rest =>
    match r with
    | .error e => .error e
    | .ok _ => seqUnit rest

/-- The fragment loop of Go `MediaSegment.Info`: per fragment, describe
the sidx boxes of its bucket, then the fragment; no state is mutated. -/
def infoLoop : List (List SidxBox) → List Fragment → Except String Unit
  | _, [] => .ok ()
  | buckets, f :: fs =>
    match seqUnit ((buckets.headD []).map SidxBox.InfoRes) with
    | .error e => .error e
    | .ok _ =>
      match f.InfoRes with
      | .error e => .error e
      | .ok _ => infoLoop buckets.tail fs

/-- Go `MediaSegment.Info`: describe the styp box (if present), then
each fragment preceded by its sidx boxes.  The writer and indentation
arguments only shape the description text and are abstracted away. -/
def MediaSegment.Info (s : MediaSegment) : Except String Unit :=
  match s.Styp with
  | some st =>
    match st.InfoRes with
    | .error e => .error e
    | .ok _ => infoLoop s.SidxsByFrag s.Fragments
  | none => infoLoop s.SidxsByFrag s.Fragments

/-- Append a (sample, trackID) pair to the last output fragment; this is
Go `of.AddFullSampleToTrack(s, trackID)` where `of` is the pointer to
the most recently created output fragment. -/
def appendToLastOut : List OutFrag → FullSample × Nat → List OutFrag
  | [], _ => []
  | [o], p => [{ o with samples := o.samples ++ [p] }]
  | o :: o2 :: os, p => o :: appendToLastOut (o2 :: os) p

/-- The per-sample body of the Go `Fragmentify` loop: when the duration
accumulator is zero open a new output fragment (sequence number and
track id of the input fragment currently being consumed), append the
sample to the open output fragment, add its duration with `uint32`
wrap-around, and reset the accumulator when it reaches the target. -/
def fragStep (duration sq tid : Nat) (st : List OutFrag × Nat)
    (smp : FullSample) : List OutFrag × Nat :=
  let outs := if st.2 = 0
    then st.1 ++ [{ SequenceNumber := sq, TrackID := tid, samples := [] }]
    else st.1
  let outs2 := appendToLastOut outs (smp, tid)
  let c := (st.2 + smp.Dur) % 2 ^ 32
  (outs2, if duration ≤ c then 0 else c)

/-- The outer loop of Go `Fragmentify` over the input fragments:
extract each fragment's full samples (first failure aborts with no
partial output) and fold the per-sample step over them. -/
def fragmentifyLoop (duration : Nat) (trex : Option TrexBox) :
    List Fragment → List OutFrag → Nat → Except String (List OutFrag)
  | [], outs, _ => .ok outs
  | f :: fs, outs, cumDur =>
    match f.GetFullSamples trex with
    | .error e => .error e
    | .ok smps =>
      let st := smps.foldl
        (fragStep duration f.Moof.Mfhd.SequenceNumber f.Moof.Traf.Tfhd.TrackID)
        (outs, cumDur)
      fragmentifyLoop duration trex fs st.1 st.2

/-- Go `MediaSegment.Fragmentify`: split the segment content into new
fragments of at least `duration` accumulated sample duration (the
`timescale` parameter is unused by the source). -/
def MediaSegment.Fragmentify (s : MediaSegment) (timescale : Nat)
    (trex : Option TrexBox) (duration : Nat) : Except String (List OutFrag) :=
  fragmentifyLoop duration trex s.Fragments [] 0

/-- The loop of Go `MediaSegment.CommonSampleDuration`: resolve each
fragment's common duration, adopt the first, and fail on the first
fragment that disagrees (1-based index in the message). -/
def csdLoop (trex : TrexBox) : List Fragment → Nat → Nat → Except String Nat
  | [], _, commonDur => .ok commonDur
  | f :: fs, i, commonDur =>
    match f.CommonSampleDuration trex with
    | .error e => .error ("fragment.CommonSampleDuration: " ++ e)
    | .ok cDur =>
      if i = 0 then csdLoop trex fs (i + 1) cDur
      else if commonDur ≠ cDur then
        .error ("different common sample duration in fragment " ++ toString (i + 1))
      else csdLoop trex fs (i + 1) commonDur

/-- Go `MediaSegment.CommonSampleDuration`: fail when no trex box is
given, otherwise run the agreement loop starting from the Go zero value
of the accumulator. -/
def MediaSegment.CommonSampleDuration (s : MediaSegment)
    (trex : Option TrexBox) : Except String Nat :=
  match trex with
  | none => .error "trex not set"
  | some t => csdLoop t s.Fragments 0 0

/-- Sum of the durations of the samples appended to an output fragment. -/
def OutFrag.durSum (o : OutFrag) : Nat :=
  (o.samples.map (fun p => p.1.Dur)).sum

/-- Concatenation, in order, of the (sample, trackID) pairs appended
across a list of output fragments. -/
def outFlat : List OutFrag → List (FullSample × Nat)
  | [] => []
  | o :: os => o.samples ++ outFlat os

/-- Concatenation, in original order, of the full samples extracted from
the input fragments, each paired with its fragment's track id. -/
def extractedSamples (trex : Option TrexBox) : List Fragment → List (FullSample × Nat)
  | [] => []
  | f :: fs =>
    (match f.GetFullSamples trex with
     | .ok smps => smps.map (fun x => (x, f.Moof.Traf.Tfhd.TrackID))
     | .error _ => []) ++ extractedSamples trex fs

/-- The first sidx box in bucket order: the head of the first non-empty
bucket of `SidxsByFrag`. -/
def firstSidx : List (List SidxBox) → Option SidxBox
  | [] => none
  | [] :: rest => firstSidx rest
  | (b :: _) :: _ => some b

/-- The per-box results of the size/encode/describe traversal, in
traversal order: the styp box (if present), then for each fragment the
boxes of its bucket followed by the fragment itself. -/
def resLoop {α : Type} (resS : SidxBox → Except String α)
    (resF : Fragment → Except String α) :
    List (List SidxBox) → List Fragment → List (Except String α)
  | _, [] => []
  | buckets, f :: fs =>
    (buckets.headD []).map resS ++ (resF f :: resLoop resS resF buckets.tail fs)

/-- All per-box results of a traversal of the segment, in traversal
order. -/
def boxResults {α : Type} (resStyp : StypBox → Except String α)
    (resS : SidxBox → Except String α) (resF : Fragment → Except String α)
    (s : MediaSegment) : List (Except String α) :=
  (match s.Styp with
   | some st => [resStyp st]
   | none => []) ++ resLoop resS resF s.SidxsByFrag s.Fragments

/-- The error of the first failing result in a list, if any. -/
def firstError {α : Type} : List (Except String α) → Option String
  | [] => none
  | .error e :: _ => some e
  | .ok _ :: rest => firstError rest

/-- A concrete baseline fragment used in witnesses: one track, one
sequence number, an 8-byte encoding, no samples, common duration 1024. -/
def fragBase : Fragment :=
  { Moof := { Mfhd := { SequenceNumber := 1 }, Traf := { Tfhd := { TrackID := 1 } } }
    EncOptimize := .optimizeNone
    BoxSize := 8
    EncodeRes := .ok [1, 2, 3, 4, 5, 6, 7, 8]
    EncodeSWRes := .ok [1, 2, 3, 4, 5, 6, 7, 8]
    InfoRes := .ok ()
    GetFullSamples := fun _ => .ok []
    CommonSampleDuration := fun _ => .ok 1024 }

/-- A concrete sample of a given duration. -/
def mkSample (d : Nat) : FullSample :=
  { Dur := d, SampleSize := 0, Flags := 0, Data := [] }

/-- A concrete trex box used in witnesses. -/
def trex0 : TrexBox := { TrackID := 1 }

/-- A concrete sidx box used in witnesses. -/
def sidx0 : SidxBox :=
  { Id := 0
    BoxSize := 4
    EncodeRes := .ok [9, 9, 9, 9]
    EncodeSWRes := .ok [9, 9, 9, 9]
    InfoRes := .ok () }

/-- The baseline fragment with a given common-duration resolver result. -/
def fragCdur (d : Nat) : Fragment :=
  { fragBase with CommonSampleDuration := fun _ => .ok d }

/-- The baseline fragment holding samples of the given durations. -/
def fragSamples (ds : List Nat) : Fragment :=
  { fragBase with GetFullSamples := fun _ => .ok (ds.map mkSample) }

/-- The baseline fragment whose encode calls fail. -/
def fragFail : Fragment :=
  { fragBase with EncodeRes := .error "mock error", EncodeSWRes := .error "mock error" }

/-- A styp-less segment holding the given fragments, with one empty
sidx bucket per fragment. -/
def segOf (frags : List Fragment) : MediaSegment :=
  { Styp := none
    Sidx := none
    SidxsByFrag := frags.map (fun _ => [])
    Fragments := frags
    EncOptimize := .optimizeNone
    StartPos := 0 }

/-- A concrete segment with styp, one sidx box and one fragment, with
consistent sizes (24 + 4 + 8 = 36 bytes). -/
def segC7 : MediaSegment :=
  { Styp := some CreateStyp
    Sidx := some sidx0
    SidxsByFrag := [[sidx0]]
    Fragments := [fragBase]
    EncOptimize := .optimizeNone
    StartPos := 0 }

/-- A concrete one-fragment segment whose strategy differs from the
fragment's own optimization flag. -/
def segC9 : MediaSegment :=
  { Styp := none
    Sidx := none
    SidxsByFrag := [[]]
    Fragments := [fragBase]
    EncOptimize := .optimizeTrun
    StartPos := 0 }

/-- Build an output fragment value (used to state concrete results). -/
def outFragOf (sq tid : Nat) (ps : List (FullSample × Nat)) : OutFrag :=
  { SequenceNumber := sq, TrackID := tid, samples := ps }

/-- The length invariant of the bucket list: as many buckets as
fragments, or exactly one more. -/
def LenInv (s : MediaSegment) : Prop :=
  s.SidxsByFrag.length = s.Fragments.length ∨
  s.SidxsByFrag.length = s.Fragments.length + 1

/-- Invariant of the `Fragmentify` sample loop, relating the output
fragments built so far to the running duration accumulator. -/
def FragInv (duration : Nat) (outs : List OutFrag) (cum : Nat) : Prop :=
  cum < 2 ^ 32 ∧
  (∀ o ∈ outs, o.samples ≠ []) ∧
  (∀ o ∈ outs.dropLast, 1 < o.samples.length → duration ≤ o.durSum) ∧
  (cum = 0 → ∀ o ∈ outs.getLast?, 1 < o.samples.length → duration ≤ o.durSum) ∧
  (cum ≠ 0 → ∃ l, outs.getLast? = some l ∧ l.durSum % 2 ^ 32 = cum ∧ cum ≤ l.durSum)

/-! ## Helper lemmas -/

theorem AddSidx_Fragments (s : MediaSegment) (b : SidxBox) :
    (s.AddSidx b).Fragments = s.Fragments := by
  obtain ⟨st, sd, sbf, fr, eo, sp⟩ := s
  cases sd <;> rfl

theorem AddFragment_Fragments (s : MediaSegment) (f : Fragment) :
    (s.AddFragment f).Fragments = s.Fragments ++ [f] := by
  obtain ⟨st, sd, sbf, fr, eo, sp⟩ := s
  rfl

theorem AddSidx_sidxs_length (s : MediaSegment) (b : SidxBox) (h : LenInv s) :
    (s.AddSidx b).SidxsByFrag.length = s.Fragments.length + 1 := by
  obtain ⟨st, sd, sbf, fr, eo, sp⟩ := s
  unfold LenInv at h
  simp only at h
  cases sd <;>
    simp only [MediaSegment.AddSidx] <;>
    rcases h with h | h <;>
    simp [h, List.length_set, List.length_append]

theorem AddFragment_sidxs_length (s : MediaSegment) (f : Fragment) (h : LenInv s) :
    (s.AddFragment f).SidxsByFrag.length = s.Fragments.length + 1 := by
  obtain ⟨st, sd, sbf, fr, eo, sp⟩ := s
  unfold LenInv at h
  simp only at h
  rcases h with h | h <;>
    simp [MediaSegment.AddFragment, h, List.length_append]

theorem lenInv_applyOp (s : MediaSegment) (op : Op) (h : LenInv s) :
    LenInv (applyOp s op) := by
  cases op with
  | addSidx b =>
    right
    rw [show (applyOp s (Op.addSidx b)).Fragments = s.Fragments from AddSidx_Fragments s b]
    exact AddSidx_sidxs_length s b h
  | addFragment f =>
    left
    rw [show (applyOp s (Op.addFragment f)).Fragments = s.Fragments ++ [f] from
      AddFragment_Fragments s f]
    rw [List.length_append]
    exact AddFragment_sidxs_length s f h

theorem lenInv_applyOps : ∀ (ops : List Op) (s : MediaSegment),
    LenInv s → LenInv (applyOps s ops) := by
  intro ops
  induction ops with
  | nil => intro s h; exact h
  | cons op rest ih =>
    intro s h
    exact ih (applyOp s op) (lenInv_applyOp s op h)

/-! ## Claim theorems -/

/-- C1: starting from an empty segment, after any interleaved sequence of
`AddSidx` / `AddFragment` calls the number of sidx buckets equals the
number of fragments or exceeds it by exactly one. -/
theorem sidxsByFrag_length_invariant (s0 : MediaSegment)
    (h1 : s0.Fragments = []) (h2 : s0.SidxsByFrag = []) (ops : List Op) :
    (applyOps s0 ops).SidxsByFrag.length = (applyOps s0 ops).Fragments.length ∨
    (applyOps s0 ops).SidxsByFrag.length = (applyOps s0 ops).Fragments.length + 1 :=
  lenInv_applyOps ops s0 (Or.inl (by simp [h1, h2]))

/-- Witness for C1 at a concrete segment and call sequence. -/
theorem sidxsByFrag_length_invariant_witness :
    (applyOps NewMediaSegment
      [Op.addSidx sidx0, Op.addFragment fragBase, Op.addSidx sidx0]).SidxsByFrag.length =
      (applyOps NewMediaSegment
        [Op.addSidx sidx0, Op.addFragment fragBase, Op.addSidx sidx0]).Fragments.length ∨
    (applyOps NewMediaSegment
      [Op.addSidx sidx0, Op.addFragment fragBase, Op.addSidx sidx0]).SidxsByFrag.length =
      (applyOps NewMediaSegment
        [Op.addSidx sidx0, Op.addFragment fragBase, Op.addSidx sidx0]).Fragments.length + 1 :=
  sidxsByFrag_length_invariant NewMediaSegment rfl rfl
    [Op.addSidx sidx0, Op.addFragment fragBase, Op.addSidx sidx0]

/-- C10: on a segment with no fragments and a non-nil trex box,
`CommonSampleDuration` returns duration 0 with no error. -/
theorem commonSampleDuration_empty (s : MediaSegment) (t : TrexBox)
    (h : s.Fragments = []) : s.CommonSampleDuration (some t) = .ok 0 := by
  unfold MediaSegment.CommonSampleDuration
  rw [h]
  rfl

/-- Witness for C10 at a concrete empty segment. -/
theorem commonSampleDuration_empty_witness :
    NewMediaSegment.CommonSampleDuration (some trex0) = .ok 0 :=
  commonSampleDuration_empty NewMediaSegment trex0 rfl

/-- C4: with per-fragment common durations [1024, 1024, 1024] the
validator returns 1024; with [1024, 2048] it fails naming fragment 2
(1-based index) in the error message. -/
theorem commonSampleDuration_examples :
    (segOf [fragCdur 1024, fragCdur 1024, fragCdur 1024]).CommonSampleDuration
      (some trex0) = .ok 1024 ∧
    (segOf [fragCdur 1024, fragCdur 2048]).CommonSampleDuration (some trex0) =
      .error "different common sample duration in fragment 2" :=
  ⟨rfl, rfl⟩

theorem csdLoop_ok (t : TrexBox) : ∀ (fs : List Fragment) (i curr d : Nat), 0 < i →
    csdLoop t fs i curr = .ok d →
    curr = d ∧ ∀ f ∈ fs, f.CommonSampleDuration t = .ok d := by
  intro fs
  induction fs with
  | nil =>
    intro i curr d hi h
    simp only [csdLoop] at h
    exact ⟨(Except.ok.injEq curr d ▸ h :), by simp⟩
  | cons f fs ih =>
    intro i curr d hi h
    simp only [csdLoop] at h
    cases hres : f.CommonSampleDuration t with
    | error e => simp only [hres] at h; exact absurd h (by simp)
    | ok c =>
      simp only [hres] at h
      rw [if_neg (Nat.pos_iff_ne_zero.mp hi)] at h
      by_cases hc : curr ≠ c
      · rw [if_pos hc] at h; exact absurd h (by simp)
      · rw [if_neg hc] at h
        push_neg at hc
        obtain ⟨h1, h2⟩ := ih (i + 1) curr d (Nat.succ_pos i) h
        subst h1
        refine ⟨rfl, ?_⟩
        intro g hg
        rcases List.mem_cons.mp hg with hg | hg
        · subst hg; rw [hres, hc]
        · exact h2 g hg

/-- C5 amended: whenever `CommonSampleDuration` returns `d` without
error, every fragment's own resolver reported exactly `d`; `d` is
moreover non-zero provided the segment has a fragment and no fragment
resolver reports a zero duration (the validator itself never checks for
zero). -/
theorem commonSampleDuration_agreement (s : MediaSegment) (t : TrexBox) (d : Nat)
    (h : s.CommonSampleDuration (some t) = .ok d) :
    (∀ f ∈ s.Fragments, f.CommonSampleDuration t = .ok d) ∧
    (s.Fragments ≠ [] →
      (∀ f ∈ s.Fragments, f.CommonSampleDuration t ≠ .ok 0) → d ≠ 0) := by
  unfold MediaSegment.CommonSampleDuration at h
  cases hfs : s.Fragments with
  | nil =>
    refine ⟨by simp, fun hne => absurd rfl hne⟩
  | cons f fs =>
    rw [hfs] at h
    simp only [csdLoop] at h
    cases hres : f.CommonSampleDuration t with
    | error e => simp only [hres] at h; exact absurd h (by simp)
    | ok c =>
      simp only [hres, if_pos rfl] at h
      obtain ⟨h1, h2⟩ := csdLoop_ok t fs 1 c d one_pos h
      subst h1
      refine ⟨?_, ?_⟩
      · intro g hg
        rcases List.mem_cons.mp hg with hg | hg
        · subst hg; exact hres
        · exact h2 g hg
      · intro _ hnz hd0
        exact hnz f (List.mem_cons_self f fs) (hd0 ▸ hres)

/-- C5 counterexample: a segment with one fragment whose resolver
reports duration 0 makes the validator return `ok 0` — the common value
is not necessarily non-zero. -/
theorem commonSampleDuration_nonzero_cex :
    (segOf [fragCdur 0]).CommonSampleDuration (some trex0) = .ok 0 ∧
    (segOf [fragCdur 0]).Fragments.length = 1 :=
  ⟨rfl, rfl⟩

/-- Witness for the amended C5 at a concrete segment. -/
theorem commonSampleDuration_agreement_witness :
    (∀ f ∈ (segOf [fragCdur 1024, fragCdur 1024]).Fragments,
      f.CommonSampleDuration trex0 = .ok 1024) ∧
    ((segOf [fragCdur 1024, fragCdur 1024]).Fragments ≠ [] →
      (∀ f ∈ (segOf [fragCdur 1024, fragCdur 1024]).Fragments,
        f.CommonSampleDuration trex0 ≠ .ok 0) → (1024 : Nat) ≠ 0) :=
  commonSampleDuration_agreement (segOf [fragCdur 1024, fragCdur 1024]) trex0 1024 rfl

theorem appendToLastOut_concat (l : List OutFrag) (o : OutFrag) (p : FullSample × Nat) :
    appendToLastOut (l ++ [o]) p = l ++ [{ o with samples := o.samples ++ [p] }] := by
  induction l with
  | nil => rfl
  | cons x xs ih =>
    cases xs with
    | nil => rfl
    | cons y ys =>
      simp only [List.cons_append] at ih ⊢
      simp only [appendToLastOut]
      rw [ih]

theorem outFlat_concat (l : List OutFrag) (o : OutFrag) :
    outFlat (l ++ [o]) = outFlat l ++ o.samples := by
  induction l with
  | nil => simp [outFlat]
  | cons x xs ih => simp [outFlat, ih]

theorem fragStep_zero (d sq tid : Nat) (outs : List OutFrag) (smp : FullSample) :
    fragStep d sq tid (outs, 0) smp =
      (outs ++ [{ SequenceNumber := sq, TrackID := tid, samples := [(smp, tid)] }],
       if d ≤ smp.Dur % 2 ^ 32 then 0 else smp.Dur % 2 ^ 32) := by
  simp [fragStep, appendToLastOut_concat]

theorem fragStep_pos (d sq tid : Nat) (outs : List OutFrag) (cum : Nat)
    (smp : FullSample) (hc : cum ≠ 0) :
    fragStep d sq tid (outs, cum) smp =
      (appendToLastOut outs (smp, tid),
       if d ≤ (cum + smp.Dur) % 2 ^ 32 then 0 else (cum + smp.Dur) % 2 ^ 32) := by
  unfold fragStep
  simp only [if_neg hc]

theorem fragStep_zero_fst (d sq tid : Nat) (outs : List OutFrag) (smp : FullSample) :
    (fragStep d sq tid (outs, 0) smp).1 =
      outs ++ [{ SequenceNumber := sq, TrackID := tid, samples := [(smp, tid)] }] := by
  rw [fragStep_zero]

theorem fragStep_zero_snd (d sq tid : Nat) (outs : List OutFrag) (smp : FullSample) :
    (fragStep d sq tid (outs, 0) smp).2 =
      if d ≤ smp.Dur % 2 ^ 32 then 0 else smp.Dur % 2 ^ 32 := by
  rw [fragStep_zero]

theorem fragStep_pos_fst (d sq tid : Nat) (outs : List OutFrag) (cum : Nat)
    (smp : FullSample) (hc : cum ≠ 0) :
    (fragStep d sq tid (outs, cum) smp).1 = appendToLastOut outs (smp, tid) := by
  rw [fragStep_pos d sq tid outs cum smp hc]

theorem fragStep_pos_snd (d sq tid : Nat) (outs : List OutFrag) (cum : Nat)
    (smp : FullSample) (hc : cum ≠ 0) :
    (fragStep d sq tid (outs, cum) smp).2 =
      if d ≤ (cum + smp.Dur) % 2 ^ 32 then 0 else (cum + smp.Dur) % 2 ^ 32 := by
  rw [fragStep_pos d sq tid outs cum smp hc]

theorem fragStep_fst_ne_nil (d sq tid : Nat) (outs : List OutFrag) (cum : Nat)
    (smp : FullSample) (h : cum ≠ 0 → outs ≠ []) :
    (fragStep d sq tid (outs, cum) smp).1 ≠ [] := by
  by_cases hc : cum = 0
  · subst hc
    rw [fragStep_zero_fst]
    simp
  · rcases List.eq_nil_or_concat' outs with houts | ⟨L, b, houts⟩
    · exact absurd houts (h hc)
    · rw [fragStep_pos_fst d sq tid outs cum smp hc, houts, appendToLastOut_concat]
      simp

theorem fragStep_flat (d sq tid : Nat) (outs : List OutFrag) (cum : Nat)
    (smp : FullSample) (h : cum ≠ 0 → outs ≠ []) :
    outFlat (fragStep d sq tid (outs, cum) smp).1 = outFlat outs ++ [(smp, tid)] := by
  by_cases hc : cum = 0
  · subst hc
    rw [fragStep_zero_fst, outFlat_concat]
  · rcases List.eq_nil_or_concat' outs with houts | ⟨L, b, houts⟩
    · exact absurd houts (h hc)
    · rw [fragStep_pos_fst d sq tid outs cum smp hc, houts, appendToLastOut_concat,
        outFlat_concat, outFlat_concat]
      simp

theorem foldl_fragStep_flat (d sq tid : Nat) :
    ∀ (smps : List FullSample) (outs : List OutFrag) (cum : Nat),
    (cum ≠ 0 → outs ≠ []) →
    outFlat (smps.foldl (fragStep d sq tid) (outs, cum)).1 =
      outFlat outs ++ smps.map (fun x => (x, tid)) ∧
    ((smps.foldl (fragStep d sq tid) (outs, cum)).2 ≠ 0 →
      (smps.foldl (fragStep d sq tid) (outs, cum)).1 ≠ []) := by
  intro smps
  induction smps with
  | nil =>
    intro outs cum h
    exact ⟨by simp, h⟩
  | cons smp rest ih =>
    intro outs cum h
    have hne := fragStep_fst_ne_nil d sq tid outs cum smp h
    have hflat := fragStep_flat d sq tid outs cum smp h
    obtain ⟨ih1, ih2⟩ := ih (fragStep d sq tid (outs, cum) smp).1
      (fragStep d sq tid (outs, cum) smp).2 (fun _ => hne)
    rw [List.foldl_cons]
    refine ⟨?_, ?_⟩
    · have e1 : outFlat ((List.foldl (fragStep d sq tid)
          (fragStep d sq tid (outs, cum) smp) rest).1) =
          outFlat (fragStep d sq tid (outs, cum) smp).1 ++
            rest.map (fun x => (x, tid)) := ih1
      rw [e1, hflat]
      simp
    · exact ih2

theorem fragmentifyLoop_flat (d : Nat) (trex : Option TrexBox) :
    ∀ (frags : List Fragment) (outs : List OutFrag) (cum : Nat) (res : List OutFrag),
    (cum ≠ 0 → outs ≠ []) →
    fragmentifyLoop d trex frags outs cum = .ok res →
    outFlat res = outFlat outs ++ extractedSamples trex frags := by
  intro frags
  induction frags with
  | nil =>
    intro outs cum res h hloop
    simp only [fragmentifyLoop] at hloop
    cases hloop
    simp [extractedSamples]
  | cons f fs ih =>
    intro outs cum res h hloop
    simp only [fragmentifyLoop] at hloop
    cases hres : f.GetFullSamples trex with
    | error e => simp only [hres] at hloop; exact absurd hloop (by simp)
    | ok smps =>
      simp only [hres] at hloop
      obtain ⟨h1, h2⟩ := foldl_fragStep_flat d f.Moof.Mfhd.SequenceNumber
        f.Moof.Traf.Tfhd.TrackID smps outs cum h
      have := ih (smps.foldl (fragStep d f.Moof.Mfhd.SequenceNumber
          f.Moof.Traf.Tfhd.TrackID) (outs, cum)).1
        (smps.foldl (fragStep d f.Moof.Mfhd.SequenceNumber
          f.Moof.Traf.Tfhd.TrackID) (outs, cum)).2 res h2 hloop
      rw [this, h1]
      simp only [extractedSamples, hres]
      simp [List.append_assoc]

/-- C3: when `Fragmentify` succeeds, the (sample, trackID) pairs
appended across the output fragments, in order, are exactly the
concatenation in original order of the full samples extracted from the
input fragments, each under its fragment's track id: nothing dropped,
duplicated or reordered. -/
theorem fragmentify_sample_conservation (s : MediaSegment) (ts : Nat)
    (trex : Option TrexBox) (d : Nat) (outs : List OutFrag)
    (h : s.Fragmentify ts trex d = .ok outs) :
    outFlat outs = extractedSamples trex s.Fragments := by
  have := fragmentifyLoop_flat d trex s.Fragments [] 0 outs (by simp) h
  simpa [outFlat] using this

/-- Witness for C3 at a concrete segment. -/
theorem fragmentify_sample_conservation_witness :
    outFlat [outFragOf 1 1 [(mkSample 30, 1), (mkSample 30, 1)],
        outFragOf 1 1 [(mkSample 10, 1)]] =
      extractedSamples (some trex0) (segOf [fragSamples [30, 30, 10]]).Fragments :=
  fragmentify_sample_conservation (segOf [fragSamples [30, 30, 10]]) 90000
    (some trex0) 50
    [outFragOf 1 1 [(mkSample 30, 1), (mkSample 30, 1)],
     outFragOf 1 1 [(mkSample 10, 1)]] rfl

theorem durSum_append (o : OutFrag) (p : FullSample × Nat) :
    OutFrag.durSum { o with samples := o.samples ++ [p] } = o.durSum + p.1.Dur := by
  simp [OutFrag.durSum]

theorem fragStep_inv (d sq tid : Nat) (smp : FullSample) (outs : List OutFrag)
    (cum : Nat) (hd : d < 2 ^ 32) (h : FragInv d outs cum) :
    FragInv d (fragStep d sq tid (outs, cum) smp).1
      (fragStep d sq tid (outs, cum) smp).2 := by
  obtain ⟨hcum, hne, hdrop, hlast0, hlastpos⟩ := h
  by_cases hc : cum = 0
  · subst hc
    rw [fragStep_zero_fst, fragStep_zero_snd]
    have hall : ∀ o ∈ outs, 1 < o.samples.length → d ≤ o.durSum := by
      intro o ho
      rcases List.eq_nil_or_concat' outs with h0 | ⟨L, b, h0⟩
      · subst h0; simp at ho
      · subst h0
        rcases List.mem_append.mp ho with hmem | hmem
        · exact hdrop o (by simpa [List.dropLast_concat] using hmem)
        · have hob : o = b := by simpa using hmem
          subst hob
          exact hlast0 rfl o (by simp)
    refine ⟨?_, ?_, ?_, ?_, ?_⟩
    · split
      · positivity
      · exact Nat.mod_lt _ (by positivity)
    · intro o ho
      rcases List.mem_append.mp ho with hmem | hmem
      · exact hne o hmem
      · simp only [List.mem_singleton] at hmem
        subst hmem; simp
    · rw [List.dropLast_concat]
      exact hall
    · intro _ o ho
      rw [List.getLast?_concat] at ho
      simp only [Option.mem_def, Option.some.injEq] at ho
      subst ho
      intro hlen
      simp at hlen
    · intro h2
      by_cases hif : d ≤ smp.Dur % 2 ^ 32
      · rw [if_pos hif] at h2; exact absurd rfl h2
      · rw [if_neg hif] at h2 ⊢
        refine ⟨_, List.getLast?_concat _, ?_, ?_⟩
        · show OutFrag.durSum (outFragOf sq tid [(smp, tid)]) % 2 ^ 32 = smp.Dur % 2 ^ 32
          simp [OutFrag.durSum, outFragOf]
        · show smp.Dur % 2 ^ 32 ≤ OutFrag.durSum (outFragOf sq tid [(smp, tid)])
          simp [OutFrag.durSum, outFragOf]
          exact Nat.mod_le _ _
  · obtain ⟨l0, hget, hmodl, hlel⟩ := hlastpos hc
    have houts : outs.dropLast ++ [l0] = outs := List.dropLast_append_getLast? l0 hget
    rw [fragStep_pos_fst d sq tid outs cum smp hc,
      fragStep_pos_snd d sq tid outs cum smp hc]
    rw [← houts, appendToLastOut_concat]
    have hmod1 : OutFrag.durSum { l0 with samples := l0.samples ++ [(smp, tid)] } % 2 ^ 32 =
        (cum + smp.Dur) % 2 ^ 32 := by
      rw [durSum_append]
      conv_lhs => rw [Nat.add_mod, hmodl]
      conv_rhs => rw [Nat.add_mod, Nat.mod_eq_of_lt hcum]
    have hge1 : (cum + smp.Dur) % 2 ^ 32 ≤
        OutFrag.durSum { l0 with samples := l0.samples ++ [(smp, tid)] } := by
      rw [durSum_append]
      exact le_trans (Nat.mod_le _ _) (Nat.add_le_add_right hlel _)
    refine ⟨?_, ?_, ?_, ?_, ?_⟩
    · split
      · positivity
      · exact Nat.mod_lt _ (by positivity)
    · intro o ho
      rcases List.mem_append.mp ho with hmem | hmem
      · exact hne o (by rw [← houts]; exact List.mem_append_left _ hmem)
      · simp only [List.mem_singleton] at hmem
        subst hmem; simp
    · rw [List.dropLast_concat]
      intro o ho
      exact hdrop o ho
    · intro h2 o ho
      rw [List.getLast?_concat] at ho
      simp only [Option.mem_def, Option.some.injEq] at ho
      subst ho
      intro _
      by_cases hif : d ≤ (cum + smp.Dur) % 2 ^ 32
      · calc d ≤ (cum + smp.Dur) % 2 ^ 32 := hif
          _ ≤ _ := hge1
      · rw [if_neg hif] at h2
        have hz : OutFrag.durSum { l0 with samples := l0.samples ++ [(smp, tid)] } % 2 ^ 32 = 0 := by
          rw [hmod1, h2]
        have hpos : 0 < OutFrag.durSum { l0 with samples := l0.samples ++ [(smp, tid)] } := by
          rw [durSum_append]
          have : 0 < cum := Nat.pos_of_ne_zero hc
          omega
        have hbig : 2 ^ 32 ≤ OutFrag.durSum { l0 with samples := l0.samples ++ [(smp, tid)] } :=
          Nat.le_of_dvd hpos (Nat.dvd_of_mod_eq_zero hz)
        exact le_trans (le_of_lt hd) hbig
    · intro h2
      by_cases hif : d ≤ (cum + smp.Dur) % 2 ^ 32
      · rw [if_pos hif] at h2; exact absurd rfl h2
      · rw [if_neg hif] at h2 ⊢
        exact ⟨_, List.getLast?_concat _, hmod1, hge1⟩

theorem foldl_fragStep_inv (d sq tid : Nat) (hd : d < 2 ^ 32) :
    ∀ (smps : List FullSample) (outs : List OutFrag) (cum : Nat),
    FragInv d outs cum →
    FragInv d (smps.foldl (fragStep d sq tid) (outs, cum)).1
      (smps.foldl (fragStep d sq tid) (outs, cum)).2 := by
  intro smps
  induction smps with
  | nil => intro outs cum h; exact h
  | cons smp rest ih =>
    intro outs cum h
    rw [List.foldl_cons]
    have hstep := fragStep_inv d sq tid smp outs cum hd h
    have := ih (fragStep d sq tid (outs, cum) smp).1
      (fragStep d sq tid (outs, cum) smp).2 hstep
    exact this

theorem fragmentifyLoop_inv (d : Nat) (trex : Option TrexBox) (hd : d < 2 ^ 32) :
    ∀ (frags : List Fragment) (outs : List OutFrag) (cum : Nat) (res : List OutFrag),
    FragInv d outs cum →
    fragmentifyLoop d trex frags outs cum = .ok res →
    ∃ c2, FragInv d res c2 := by
  intro frags
  induction frags with
  | nil =>
    intro outs cum res h hloop
    simp only [fragmentifyLoop] at hloop
    cases hloop
    exact ⟨cum, h⟩
  | cons f fs ih =>
    intro outs cum res h hloop
    simp only [fragmentifyLoop] at hloop
    cases hres : f.GetFullSamples trex with
    | error e => simp only [hres] at hloop; exact absurd hloop (by simp)
    | ok smps =>
      simp only [hres] at hloop
      exact ih _ _ res (foldl_fragStep_inv d f.Moof.Mfhd.SequenceNumber
        f.Moof.Traf.Tfhd.TrackID hd smps outs cum h) hloop

/-- C2 amended: when `Fragmentify` succeeds, every output fragment
contains at least one sample, and every output fragment other than the
last whose sample count exceeds one has accumulated duration at least
the target (a non-last single-sample output fragment can fall short
only when that sample has duration zero). -/
theorem fragmentify_duration_lower_bound (s : MediaSegment) (ts : Nat)
    (trex : Option TrexBox) (d : Nat) (outs : List OutFrag)
    (hd : d < 2 ^ 32) (h : s.Fragmentify ts trex d = .ok outs) :
    (∀ o ∈ outs, o.samples ≠ []) ∧
    (∀ o ∈ outs.dropLast, 1 < o.samples.length → d ≤ o.durSum) := by
  have base : FragInv d [] 0 := by
    refine ⟨by positivity, by simp, by simp, ?_, fun hc => absurd rfl hc⟩
    intro _ o ho
    simp at ho
  obtain ⟨c2, hinv⟩ := fragmentifyLoop_inv d trex hd s.Fragments [] 0 outs base h
  exact ⟨hinv.2.1, hinv.2.2.1⟩

/-- C2 counterexample: with a single input fragment holding samples of
durations [0, 100] and target 50, `Fragmentify` succeeds and its first
output fragment is not the last yet has total duration 0 < 50 — the
unqualified per-fragment lower bound of the claim fails. -/
theorem fragmentify_duration_bound_cex :
    (segOf [fragSamples [0, 100]]).Fragmentify 90000 (some trex0) 50 =
      .ok [outFragOf 1 1 [(mkSample 0, 1)], outFragOf 1 1 [(mkSample 100, 1)]] ∧
    (outFragOf 1 1 [(mkSample 0, 1)]).durSum = 0 ∧
    ([outFragOf 1 1 [(mkSample 0, 1)], outFragOf 1 1 [(mkSample 100, 1)]].dropLast =
      [outFragOf 1 1 [(mkSample 0, 1)]]) ∧
    (0 : Nat) < 50 :=
  ⟨rfl, rfl, rfl, by norm_num⟩

/-- Witness for the amended C2 at a concrete segment. -/
theorem fragmentify_duration_lower_bound_witness :
    (∀ o ∈ [outFragOf 1 1 [(mkSample 30, 1), (mkSample 30, 1)],
        outFragOf 1 1 [(mkSample 10, 1)]], o.samples ≠ []) ∧
    (∀ o ∈ [outFragOf 1 1 [(mkSample 30, 1), (mkSample 30, 1)],
        outFragOf 1 1 [(mkSample 10, 1)]].dropLast,
      1 < o.samples.length → 50 ≤ o.durSum) :=
  fragmentify_duration_lower_bound (segOf [fragSamples [30, 30, 10]]) 90000
    (some trex0) 50
    [outFragOf 1 1 [(mkSample 30, 1), (mkSample 30, 1)],
     outFragOf 1 1 [(mkSample 10, 1)]] (by norm_num) rfl

theorem firstSidx_append_nil (l : List (List SidxBox)) :
    firstSidx (l ++ [[]]) = firstSidx l := by
  induction l with
  | nil => rfl
  | cons x xs ih =>
    cases x with
    | nil => simpa [firstSidx] using ih
    | cons b bs => rfl

theorem getD_all_nil (l : List (List SidxBox)) (h : ∀ x ∈ l, x = []) (i : Nat) :
    l.getD i [] = [] := by
  induction l generalizing i with
  | nil => simp
  | cons y ys ih =>
    cases i with
    | zero => exact h y (List.mem_cons_self y ys)
    | succ j =>
      simp only [List.getD_cons_succ]
      exact ih (fun x hx => h x (List.mem_cons_of_mem y hx)) j

theorem firstSidx_set_all_nil (l : List (List SidxBox)) (h : ∀ x ∈ l, x = [])
    (i : Nat) (b : SidxBox) (hi : i < l.length) :
    firstSidx (l.set i [b]) = some b := by
  induction l generalizing i with
  | nil => simp at hi
  | cons y ys ih =>
    cases i with
    | zero => rfl
    | succ j =>
      have hy : y = [] := h y (List.mem_cons_self y ys)
      subst hy
      simp only [List.set_cons_succ]
      show firstSidx (ys.set j [b]) = some b
      exact ih (fun x hx => h x (List.mem_cons_of_mem [] hx)) j (by simpa using hi)

theorem firstSidx_set_append (l : List (List SidxBox)) (b0 x : SidxBox) :
    ∀ (i : Nat), l.length ≤ i + 1 → firstSidx l = some b0 →
    firstSidx (l.set i (l.getD i [] ++ [x])) = some b0 := by
  induction l with
  | nil => intro i hlen h; simp [firstSidx] at h
  | cons y ys ih =>
    intro i hlen h
    cases y with
    | cons b bs =>
      cases i with
      | zero => exact h
      | succ j =>
        simp only [List.set_cons_succ]
        exact h
    | nil =>
      cases i with
      | zero =>
        cases ys with
        | nil => simp [firstSidx] at h
        | cons z zs => simp at hlen
      | succ j =>
        simp only [List.set_cons_succ, List.getD_cons_succ]
        show firstSidx (ys.set j (ys.getD j [] ++ [x])) = some b0
        exact ih j (by simpa using hlen) h

theorem AddFragment_Sidx (s : MediaSegment) (f : Fragment) :
    (s.AddFragment f).Sidx = s.Sidx := by
  obtain ⟨st, sd, sbf, fr, eo, sp⟩ := s
  rfl

theorem AddFragment_SidxsByFrag (s : MediaSegment) (f : Fragment) :
    (s.AddFragment f).SidxsByFrag =
      if s.SidxsByFrag.length < s.Fragments.length + 1
      then s.SidxsByFrag ++ [[]] else s.SidxsByFrag := by
  obtain ⟨st, sd, sbf, fr, eo, sp⟩ := s
  simp [MediaSegment.AddFragment]

theorem AddSidx_Sidx_none (s : MediaSegment) (b : SidxBox) (h : s.Sidx = none) :
    (s.AddSidx b).Sidx = some b := by
  obtain ⟨st, sd, sbf, fr, eo, sp⟩ := s
  simp only at h
  subst h
  rfl

theorem AddSidx_Sidx_some (s : MediaSegment) (b b0 : SidxBox) (h : s.Sidx = some b0) :
    (s.AddSidx b).Sidx = some b0 := by
  obtain ⟨st, sd, sbf, fr, eo, sp⟩ := s
  simp only at h
  subst h
  rfl

theorem AddSidx_SidxsByFrag (s : MediaSegment) (b : SidxBox) :
    (s.AddSidx b).SidxsByFrag =
      (if s.SidxsByFrag.length = s.Fragments.length
       then s.SidxsByFrag ++ [[]] else s.SidxsByFrag).set s.Fragments.length
        ((if s.SidxsByFrag.length = s.Fragments.length
          then s.SidxsByFrag ++ [[]] else s.SidxsByFrag).getD s.Fragments.length [] ++ [b]) := by
  obtain ⟨st, sd, sbf, fr, eo, sp⟩ := s
  cases sd <;> rfl

/-- The Sidx redundancy invariant: the bucket list length invariant,
all buckets empty while no sidx was added, and once `Sidx` is set it is
the head of the first non-empty bucket. -/
def SInv (s : MediaSegment) : Prop :=
  LenInv s ∧
  (s.Sidx = none → ∀ l ∈ s.SidxsByFrag, l = []) ∧
  (∀ b, s.Sidx = some b → firstSidx s.SidxsByFrag = some b)

theorem sInv_addFragment (s : MediaSegment) (f : Fragment) (h : SInv s) :
    SInv (s.AddFragment f) := by
  obtain ⟨hlen, hnone, hsome⟩ := h
  refine ⟨lenInv_applyOp s (Op.addFragment f) hlen, ?_, ?_⟩
  · intro hnil l hl
    rw [AddFragment_Sidx] at hnil
    rw [AddFragment_SidxsByFrag] at hl
    split at hl
    · rcases List.mem_append.mp hl with hm | hm
      · exact hnone hnil l hm
      · simpa using hm
    · exact hnone hnil l hl
  · intro b hb
    rw [AddFragment_Sidx] at hb
    rw [AddFragment_SidxsByFrag]
    split
    · rw [firstSidx_append_nil]
      exact hsome b hb
    · exact hsome b hb

theorem sInv_addSidx (s : MediaSegment) (b : SidxBox) (h : SInv s) :
    SInv (s.AddSidx b) := by
  obtain ⟨hlen, hnone, hsome⟩ := h
  refine ⟨lenInv_applyOp s (Op.addSidx b) hlen, ?_, ?_⟩
  · intro hnil
    exfalso
    cases hsd : s.Sidx with
    | none => rw [AddSidx_Sidx_none s b hsd] at hnil; exact Option.noConfusion hnil
    | some b0 => rw [AddSidx_Sidx_some s b b0 hsd] at hnil; exact Option.noConfusion hnil
  · intro b1 hb1
    rw [AddSidx_SidxsByFrag]
    cases hsd : s.Sidx with
    | none =>
      have hb : b1 = b := by
        rw [AddSidx_Sidx_none s b hsd] at hb1
        exact (Option.some.injEq b b1 ▸ hb1 :).symm
      subst hb
      have hempty := hnone hsd
      have hempty2 : ∀ x ∈ (if s.SidxsByFrag.length = s.Fragments.length
          then s.SidxsByFrag ++ [[]] else s.SidxsByFrag), x = [] := by
        split
        · intro x hx
          rcases List.mem_append.mp hx with hm | hm
          · exact hempty x hm
          · simpa using hm
        · exact hempty
      rw [getD_all_nil _ hempty2, List.nil_append]
      apply firstSidx_set_all_nil _ hempty2
      rcases hlen with hl | hl
      · rw [if_pos hl]
        simp only [List.length_append, List.length_singleton]
        omega
      · have hne : ¬(s.SidxsByFrag.length = s.Fragments.length) := by omega
        rw [if_neg hne, hl]
        simp
    | some b0 =>
      have hb : b1 = b0 := by
        rw [AddSidx_Sidx_some s b b0 hsd] at hb1
        exact (Option.some.injEq b0 b1 ▸ hb1 :).symm
      subst hb
      have hfs := hsome b1 hsd
      apply firstSidx_set_append
      · rcases hlen with hl | hl
        · rw [if_pos hl]
          simp only [List.length_append, List.length_singleton]
          omega
        · have hne : ¬(s.SidxsByFrag.length = s.Fragments.length) := by omega
          rw [if_neg hne, hl]
      · split
        · rw [firstSidx_append_nil]; exact hfs
        · exact hfs

theorem sInv_applyOps : ∀ (ops : List Op) (s : MediaSegment),
    SInv s → SInv (applyOps s ops) := by
  intro ops
  induction ops with
  | nil => intro s h; exact h
  | cons op rest ih =>
    intro s h
    refine ih (applyOp s op) ?_
    cases op with
    | addSidx b => exact sInv_addSidx s b h
    | addFragment f => exact sInv_addFragment s f h

/-- C6 amended: built from an empty segment by any sequence of
`AddSidx` / `AddFragment` calls, once `Sidx` is set it is the first
element of the first non-empty bucket of `SidxsByFrag` (in particular
`SidxsByFrag[0][0]` whenever bucket 0 is non-empty); it need not sit in
bucket 0 when the first `AddSidx` comes after an `AddFragment`. -/
theorem sidx_first_nonempty_bucket (s0 : MediaSegment)
    (h1 : s0.Fragments = []) (h2 : s0.SidxsByFrag = []) (h3 : s0.Sidx = none)
    (ops : List Op) (b : SidxBox)
    (hb : (applyOps s0 ops).Sidx = some b) :
    firstSidx (applyOps s0 ops).SidxsByFrag = some b := by
  have base : SInv s0 := by
    refine ⟨Or.inl (by simp [h1, h2]), ?_, ?_⟩
    · intro _ l hl
      rw [h2] at hl
      simp at hl
    · intro b1 hb1
      rw [h3] at hb1
      exact Option.noConfusion hb1
  exact (sInv_applyOps ops s0 base).2.2 b hb

/-- C6 counterexample: adding a fragment first and a sidx box second
sets `Sidx` while bucket 0 stays empty, so `Sidx` does not equal
`SidxsByFrag[0][0]`. -/
theorem sidx_bucket0_cex :
    (applyOps NewMediaSegment [Op.addFragment fragBase, Op.addSidx sidx0]).Sidx =
      some sidx0 ∧
    (applyOps NewMediaSegment
      [Op.addFragment fragBase, Op.addSidx sidx0]).SidxsByFrag.getD 0 [] = [] :=
  ⟨rfl, rfl⟩

/-- Witness for the amended C6 at a concrete call sequence. -/
theorem sidx_first_nonempty_bucket_witness :
    firstSidx (applyOps NewMediaSegment [Op.addSidx sidx0]).SidxsByFrag = some sidx0 :=
  sidx_first_nonempty_bucket NewMediaSegment rfl rfl rfl [Op.addSidx sidx0] sidx0 rfl

theorem encodeLoop_ok_snd (opt : EncOptimize) (encS : SidxBox → Except String (List Nat))
    (encF : Fragment → Except String (List Nat)) :
    ∀ (frags : List Fragment) (buckets : List (List SidxBox)) (out : List Nat),
    (encodeLoop opt encS encF buckets frags).1 = .ok out →
    (encodeLoop opt encS encF buckets frags).2 =
      frags.map (fun f => { f with EncOptimize := opt }) := by
  intro frags
  induction frags with
  | nil => intro buckets out h; rfl
  | cons f fs ih =>
    intro buckets out h
    simp only [encodeLoop] at h ⊢
    cases h1 : encCat ((buckets.headD []).map encS) with
    | error e => simp only [h1] at h; exact absurd h (by simp)
    | ok bs1 =>
      simp only [h1] at h ⊢
      cases h2 : encF { f with EncOptimize := opt } with
      | error e => simp only [h2] at h; exact absurd h (by simp)
      | ok bs2 =>
        simp only [h2] at h ⊢
        cases hp : (encodeLoop opt encS encF buckets.tail fs).1 with
        | error e => rw [hp] at h; exact absurd h (by simp [Except.map])
        | ok out0 =>
          simp only [List.map_cons]
          congr 1
          exact ih buckets.tail out0 hp

theorem Encode_proj (s : MediaSegment) :
    (s.Encode).2.Styp = s.Styp ∧ (s.Encode).2.Sidx = s.Sidx ∧
    (s.Encode).2.SidxsByFrag = s.SidxsByFrag ∧
    (s.Encode).2.EncOptimize = s.EncOptimize ∧ (s.Encode).2.StartPos = s.StartPos := by
  obtain ⟨st, sd, sbf, fr, eo, sp⟩ := s
  unfold MediaSegment.Encode
  cases st with
  | none => exact ⟨rfl, rfl, rfl, rfl, rfl⟩
  | some stv =>
    cases h : stv.EncodeRes with
    | error e => simp [h]
    | ok bs => simp [h]

theorem EncodeSW_proj (s : MediaSegment) :
    (s.EncodeSW).2.Styp = s.Styp ∧ (s.EncodeSW).2.Sidx = s.Sidx ∧
    (s.EncodeSW).2.SidxsByFrag = s.SidxsByFrag ∧
    (s.EncodeSW).2.EncOptimize = s.EncOptimize ∧ (s.EncodeSW).2.StartPos = s.StartPos := by
  obtain ⟨st, sd, sbf, fr, eo, sp⟩ := s
  unfold MediaSegment.EncodeSW
  cases st with
  | none => exact ⟨rfl, rfl, rfl, rfl, rfl⟩
  | some stv =>
    cases h : stv.EncodeSWRes with
    | error e => simp [h]
    | ok bs => simp [h]

theorem Encode_ok_fragments (s : MediaSegment) (out : List Nat)
    (h : (s.Encode).1 = .ok out) :
    (s.Encode).2.Fragments =
      s.Fragments.map (fun f => { f with EncOptimize := s.EncOptimize }) := by
  obtain ⟨st, sd, sbf, fr, eo, sp⟩ := s
  cases st with
  | none =>
    exact encodeLoop_ok_snd eo SidxBox.EncodeRes Fragment.EncodeRes fr sbf out h
  | some stv =>
    cases h0 : stv.EncodeRes with
    | error e =>
      exfalso
      simp only [MediaSegment.Encode, h0] at h
      exact absurd h (by simp)
    | ok bs0 =>
      simp only [MediaSegment.Encode, h0] at h
      simp only [MediaSegment.Encode, h0]
      cases hp : (encodeLoop eo SidxBox.EncodeRes Fragment.EncodeRes sbf fr).1 with
      | error e => rw [hp] at h; exact absurd h (by simp [Except.map])
      | ok out0 =>
        exact encodeLoop_ok_snd eo SidxBox.EncodeRes Fragment.EncodeRes fr sbf out0 hp

theorem EncodeSW_ok_fragments (s : MediaSegment) (out : List Nat)
    (h : (s.EncodeSW).1 = .ok out) :
    (s.EncodeSW).2.Fragments =
      s.Fragments.map (fun f => { f with EncOptimize := s.EncOptimize }) := by
  obtain ⟨st, sd, sbf, fr, eo, sp⟩ := s
  cases st with
  | none =>
    exact encodeLoop_ok_snd eo SidxBox.EncodeSWRes Fragment.EncodeSWRes fr sbf out h
  | some stv =>
    cases h0 : stv.EncodeSWRes with
    | error e =>
      exfalso
      simp only [MediaSegment.EncodeSW, h0] at h
      exact absurd h (by simp)
    | ok bs0 =>
      simp only [MediaSegment.EncodeSW, h0] at h
      simp only [MediaSegment.EncodeSW, h0]
      cases hp : (encodeLoop eo SidxBox.EncodeSWRes Fragment.EncodeSWRes sbf fr).1 with
      | error e => rw [hp] at h; exact absurd h (by simp [Except.map])
      | ok out0 =>
        exact encodeLoop_ok_snd eo SidxBox.EncodeSWRes Fragment.EncodeSWRes fr sbf out0 hp

/-- C9 amended: encoding leaves every aggregator field except
`Fragments` untouched, and on success every fragment comes back with
its optimization flag set to the segment strategy and all other fields
unchanged — the projected flag is persisted on the fragments after
`Encode` / `EncodeSW` return, not restored. -/
theorem encode_state_effect (s : MediaSegment) :
    ((s.Encode).2.Styp = s.Styp ∧ (s.Encode).2.Sidx = s.Sidx ∧
     (s.Encode).2.SidxsByFrag = s.SidxsByFrag ∧
     (s.Encode).2.EncOptimize = s.EncOptimize ∧
     (s.Encode).2.StartPos = s.StartPos ∧
     ∀ out, (s.Encode).1 = .ok out →
       (s.Encode).2.Fragments =
         s.Fragments.map (fun f => { f with EncOptimize := s.EncOptimize })) ∧
    ((s.EncodeSW).2.Styp = s.Styp ∧ (s.EncodeSW).2.Sidx = s.Sidx ∧
     (s.EncodeSW).2.SidxsByFrag = s.SidxsByFrag ∧
     (s.EncodeSW).2.EncOptimize = s.EncOptimize ∧
     (s.EncodeSW).2.StartPos = s.StartPos ∧
     ∀ out, (s.EncodeSW).1 = .ok out →
       (s.EncodeSW).2.Fragments =
         s.Fragments.map (fun f => { f with EncOptimize := s.EncOptimize })) := by
  obtain ⟨p1, p2, p3, p4, p5⟩ := Encode_proj s
  obtain ⟨q1, q2, q3, q4, q5⟩ := EncodeSW_proj s
  exact ⟨⟨p1, p2, p3, p4, p5, fun out h => Encode_ok_fragments s out h⟩,
    ⟨q1, q2, q3, q4, q5, fun out h => EncodeSW_ok_fragments s out h⟩⟩

/-- C9 counterexample: after a successful `EncodeSW`, the fragment
retains the segment strategy `optimizeTrun` in place of its original
`optimizeNone` flag — the projection is persisted, not transient. -/
theorem encOptimize_persisted_cex :
    segC9.EncodeSW.2.Fragments.map Fragment.EncOptimize =
      [EncOptimize.optimizeTrun] ∧
    (segOf [fragBase]).Fragments.map Fragment.EncOptimize = [EncOptimize.optimizeNone] ∧
    segC9.EncodeSW.1 = .ok [1, 2, 3, 4, 5, 6, 7, 8] :=
  ⟨rfl, rfl, rfl⟩

/-- Witness for the amended C9 at a concrete segment. -/
theorem encode_state_effect_witness :
    segC9.EncodeSW.2.Fragments =
      segC9.Fragments.map (fun f => { f with EncOptimize := EncOptimize.optimizeTrun }) :=
  (encode_state_effect segC9).2.2.2.2.2.2 [1, 2, 3, 4, 5, 6, 7, 8] rfl

theorem map_length_ok {r : Except String (List Nat)} {n : Nat}
    (h : Except.map List.length r = .ok n) : ∃ bs, r = .ok bs ∧ bs.length = n := by
  cases r with
  | error e => simp [Except.map] at h
  | ok bs =>
    refine ⟨bs, rfl, ?_⟩
    simpa [Except.map] using h

theorem encCat_map_ok (l : List SidxBox)
    (h : ∀ sx ∈ l, Except.map List.length sx.EncodeSWRes = .ok sx.BoxSize) :
    ∃ bs, encCat (l.map SidxBox.EncodeSWRes) = .ok bs ∧
      bs.length = (l.map SidxBox.BoxSize).sum := by
  induction l with
  | nil => exact ⟨[], rfl, rfl⟩
  | cons sx rest ih =>
    obtain ⟨bs1, hbs1, hlen1⟩ := map_length_ok (h sx (List.mem_cons_self sx rest))
    obtain ⟨bs2, hbs2, hlen2⟩ := ih (fun x hx => h x (List.mem_cons_of_mem sx hx))
    refine ⟨bs1 ++ bs2, ?_, ?_⟩
    · simp only [List.map_cons, encCat, hbs1, hbs2, Except.map]
    · simp [hlen1, hlen2]

theorem encodeLoopSW_ok (opt : EncOptimize) :
    ∀ (frags : List Fragment) (buckets : List (List SidxBox)),
    (∀ bkt ∈ buckets, ∀ sx ∈ bkt, Except.map List.length sx.EncodeSWRes = .ok sx.BoxSize) →
    (∀ f ∈ frags, Except.map List.length f.EncodeSWRes = .ok f.BoxSize) →
    ∃ out, (encodeLoop opt SidxBox.EncodeSWRes Fragment.EncodeSWRes buckets frags).1 = .ok out ∧
      out.length = sizeNatLoop buckets frags := by
  intro frags
  induction frags with
  | nil => intro buckets hsx hf; exact ⟨[], rfl, rfl⟩
  | cons f fs ih =>
    intro buckets hsx hf
    have hhead : ∀ sx ∈ buckets.headD [], Except.map List.length sx.EncodeSWRes = .ok sx.BoxSize := by
      cases buckets with
      | nil => simp
      | cons b bs => exact hsx b (List.mem_cons_self b bs)
    have htail : ∀ bkt ∈ buckets.tail, ∀ sx ∈ bkt,
        Except.map List.length sx.EncodeSWRes = .ok sx.BoxSize := by
      cases buckets with
      | nil => simp
      | cons b bs => exact fun bkt hb => hsx bkt (List.mem_cons_of_mem b hb)
    obtain ⟨bs1, hbs1, hlen1⟩ := encCat_map_ok (buckets.headD []) hhead
    obtain ⟨bs2, hbs2, hlen2⟩ := map_length_ok (hf f (List.mem_cons_self f fs))
    obtain ⟨bs3, hbs3, hlen3⟩ := ih buckets.tail htail
      (fun x hx => hf x (List.mem_cons_of_mem f hx))
    refine ⟨bs1 ++ bs2 ++ bs3, ?_, ?_⟩
    · simp only [encodeLoop, hbs1, hbs2, hbs3, Except.map]
    · simp only [sizeNatLoop, List.length_append, hlen1, hlen2, hlen3]

theorem foldl_add64 (l : List SidxBox) : ∀ (acc : Nat), acc < 2 ^ 64 →
    l.foldl (fun a sx => add64 a sx.BoxSize) acc =
      (acc + (l.map SidxBox.BoxSize).sum) % 2 ^ 64 := by
  induction l with
  | nil =>
    intro acc hacc
    simp only [List.foldl_nil, List.map_nil, List.sum_nil, Nat.add_zero]
    exact (Nat.mod_eq_of_lt hacc).symm
  | cons sx rest ih =>
    intro acc hacc
    rw [List.foldl_cons]
    have hlt : add64 acc sx.BoxSize < 2 ^ 64 := Nat.mod_lt _ (by positivity)
    rw [ih (add64 acc sx.BoxSize) hlt]
    show ((acc + sx.BoxSize) % 2 ^ 64 + (rest.map SidxBox.BoxSize).sum) % 2 ^ 64 = _
    rw [Nat.mod_add_mod]
    simp only [List.map_cons, List.sum_cons]
    congr 1
    omega

theorem sizeLoop_mod : ∀ (frags : List Fragment) (buckets : List (List SidxBox)) (acc : Nat),
    acc < 2 ^ 64 →
    sizeLoop buckets frags acc = (acc + sizeNatLoop buckets frags) % 2 ^ 64 := by
  intro frags
  induction frags with
  | nil =>
    intro buckets acc hacc
    simp only [sizeLoop, sizeNatLoop, Nat.add_zero]
    exact (Nat.mod_eq_of_lt hacc).symm
  | cons f fs ih =>
    intro buckets acc hacc
    show sizeLoop buckets.tail fs
        (add64 ((buckets.headD []).foldl (fun a sx => add64 a sx.BoxSize) acc) f.BoxSize) = _
    have hlt : add64 ((buckets.headD []).foldl (fun a sx => add64 a sx.BoxSize) acc)
        f.BoxSize < 2 ^ 64 := Nat.mod_lt _ (by positivity)
    rw [ih buckets.tail _ hlt]
    rw [show add64 ((buckets.headD []).foldl (fun a sx => add64 a sx.BoxSize) acc) f.BoxSize =
        ((buckets.headD []).foldl (fun a sx => add64 a sx.BoxSize) acc + f.BoxSize) % 2 ^ 64
        from rfl]
    rw [foldl_add64 (buckets.headD []) acc hacc]
    rw [Nat.mod_add_mod, Nat.add_assoc, Nat.mod_add_mod]
    simp only [sizeNatLoop]
    congr 1
    omega

theorem sizeLoop_map_flag (opt : EncOptimize) : ∀ (frags : List Fragment)
    (buckets : List (List SidxBox)) (acc : Nat),
    sizeLoop buckets (frags.map (fun f => { f with EncOptimize := opt })) acc =
      sizeLoop buckets frags acc := by
  intro frags
  induction frags with
  | nil => intro buckets acc; rfl
  | cons f fs ih =>
    intro buckets acc
    simp only [List.map_cons, sizeLoop]
    exact ih buckets.tail _

theorem Size_eq_sizeNat (s : MediaSegment) (hov : s.SizeNat < 2 ^ 64) :
    s.Size = s.SizeNat := by
  obtain ⟨st, sd, sbf, fr, eo, sp⟩ := s
  cases st with
  | none =>
    show sizeLoop sbf fr 0 = _
    have h2 : MediaSegment.SizeNat ⟨none, sd, sbf, fr, eo, sp⟩ = sizeNatLoop sbf fr := by
      simp [MediaSegment.SizeNat]
    rw [h2] at hov ⊢
    rw [sizeLoop_mod fr sbf 0 (by positivity), Nat.zero_add]
    exact Nat.mod_eq_of_lt hov
  | some stv =>
    show sizeLoop sbf fr (add64 0 stv.BoxSize) = _
    have h2 : MediaSegment.SizeNat ⟨some stv, sd, sbf, fr, eo, sp⟩ =
        stv.BoxSize + sizeNatLoop sbf fr := by
      simp [MediaSegment.SizeNat]
    rw [h2] at hov ⊢
    have hlt : add64 0 stv.BoxSize < 2 ^ 64 := Nat.mod_lt _ (by positivity)
    rw [sizeLoop_mod fr sbf _ hlt]
    rw [show add64 0 stv.BoxSize = stv.BoxSize % 2 ^ 64 from by simp [add64]]
    rw [Nat.mod_add_mod]
    exact Nat.mod_eq_of_lt hov

/-- C7: assuming each traversed sub-box's reported size equals the byte
length its slice-writer encode produces, and no `uint64` overflow of
the total, `EncodeSW` succeeds and writes exactly `Size` bytes — both
walking the same traversal (styp, then per fragment its sidx bucket in
append order, then the fragment).  `Size` reads no mutable state (it is
a pure function of the segment, so repeated calls agree by
construction), and it is unchanged by the only mutation encoding
performs (the fragment-flag projection), stated here as the final
conjunct. -/
theorem size_matches_encodeSW (s : MediaSegment)
    (hst : ∀ st, s.Styp = some st → Except.map List.length st.EncodeSWRes = .ok st.BoxSize)
    (hsx : ∀ bkt ∈ s.SidxsByFrag, ∀ sx ∈ bkt,
      Except.map List.length sx.EncodeSWRes = .ok sx.BoxSize)
    (hf : ∀ f ∈ s.Fragments, Except.map List.length f.EncodeSWRes = .ok f.BoxSize)
    (hov : s.SizeNat < 2 ^ 64) :
    ∃ out, (s.EncodeSW).1 = .ok out ∧ out.length = s.Size ∧
      (s.EncodeSW).2.Size = s.Size := by
  have hsize := Size_eq_sizeNat s hov
  obtain ⟨st, sd, sbf, fr, eo, sp⟩ := s
  obtain ⟨out1, hout1, hlen1⟩ := encodeLoopSW_ok eo fr sbf hsx hf
  have hfr2 := encodeLoop_ok_snd eo SidxBox.EncodeSWRes Fragment.EncodeSWRes fr sbf out1 hout1
  cases st with
  | none =>
    refine ⟨out1, hout1, ?_, ?_⟩
    · rw [hsize, hlen1]
      simp [MediaSegment.SizeNat]
    · show sizeLoop sbf ((encodeLoop eo SidxBox.EncodeSWRes Fragment.EncodeSWRes sbf fr).2) 0 =
        sizeLoop sbf fr 0
      rw [hfr2, sizeLoop_map_flag]
  | some stv =>
    obtain ⟨bs0, hbs0, hlen0⟩ := map_length_ok (hst stv rfl)
    refine ⟨bs0 ++ out1, ?_, ?_, ?_⟩
    · simp only [MediaSegment.EncodeSW, hbs0, hout1, Except.map]
    · rw [hsize]
      simp only [List.length_append, hlen0, hlen1]
      simp [MediaSegment.SizeNat]
    · simp only [MediaSegment.EncodeSW, hbs0]
      show sizeLoop sbf ((encodeLoop eo SidxBox.EncodeSWRes Fragment.EncodeSWRes sbf fr).2)
          (add64 0 stv.BoxSize) = sizeLoop sbf fr (add64 0 stv.BoxSize)
      rw [hfr2, sizeLoop_map_flag]

/-- Witness for C7 at a concrete segment (styp 24 bytes, one sidx of 4
bytes, one fragment of 8 bytes, total 36). -/
theorem size_matches_encodeSW_witness :
    ∃ out, (segC7.EncodeSW).1 = .ok out ∧ out.length = segC7.Size ∧
      (segC7.EncodeSW).2.Size = segC7.Size :=
  size_matches_encodeSW segC7
    (fun st h => by
      have h2 : CreateStyp = st := Option.some_inj.mp h
      subst h2
      rfl)
    (by decide)
    (fun f hfm => by
      have h2 : f = fragBase := by simpa [segOf, segC7] using hfm
      subst h2
      rfl)
    (by decide)

theorem firstError_append_some {α : Type} (xs ys : List (Except String α)) (e : String)
    (h : firstError xs = some e) : firstError (xs ++ ys) = some e := by
  induction xs with
  | nil => simp [firstError] at h
  | cons r rest ih =>
    cases r with
    | error e2 => simpa [firstError] using h
    | ok a =>
      simp only [firstError] at h
      simp only [List.cons_append, firstError]
      exact ih h

theorem firstError_append_none {α : Type} (xs ys : List (Except String α))
    (h : firstError xs = none) : firstError (xs ++ ys) = firstError ys := by
  induction xs with
  | nil => rfl
  | cons r rest ih =>
    cases r with
    | error e2 => simp [firstError] at h
    | ok a =>
      simp only [firstError] at h
      simp only [List.cons_append, firstError]
      exact ih h

theorem encCat_error_iff : ∀ (rs : List (Except String (List Nat))) (e : String),
    encCat rs = .error e ↔ firstError rs = some e := by
  intro rs
  induction rs with
  | nil => intro e; simp [encCat, firstError]
  | cons r rest ih =>
    intro e
    cases r with
    | error e2 => simp [encCat, firstError]
    | ok bs =>
      simp only [encCat, firstError]
      cases hr : encCat rest with
      | error e2 =>
        simp only [Except.map]
        rw [← ih e]
        rw [hr]
      | ok bs2 =>
        simp only [Except.map]
        constructor
        · intro hcon; exact absurd hcon (by simp)
        · intro hfe
          rw [← ih e] at hfe
          rw [hr] at hfe
          exact absurd hfe (by simp)

theorem seqUnit_error_iff : ∀ (rs : List (Except String Unit)) (e : String),
    seqUnit rs = .error e ↔ firstError rs = some e := by
  intro rs
  induction rs with
  | nil => intro e; simp [seqUnit, firstError]
  | cons r rest ih =>
    intro e
    cases r with
    | error e2 => simp [seqUnit, firstError]
    | ok u => simpa [seqUnit, firstError] using ih e

theorem encodeLoop_error_iff (opt : EncOptimize) (encS : SidxBox → Except String (List Nat))
    (encF : Fragment → Except String (List Nat))
    (hFI : ∀ (f : Fragment) (o : EncOptimize), encF { f with EncOptimize := o } = encF f) :
    ∀ (frags : List Fragment) (buckets : List (List SidxBox)) (e : String),
    (encodeLoop opt encS encF buckets frags).1 = .error e ↔
      firstError (resLoop encS encF buckets frags) = some e := by
  intro frags
  induction frags with
  | nil => intro buckets e; simp [encodeLoop, resLoop, firstError]
  | cons f fs ih =>
    intro buckets e
    simp only [encodeLoop, resLoop]
    cases hc : encCat ((buckets.headD []).map encS) with
    | error e2 =>
      have hfe : firstError ((buckets.headD []).map encS) = some e2 :=
        (encCat_error_iff _ e2).mp hc
      rw [firstError_append_some _ _ e2 hfe]
      simp
    | ok bs1 =>
      have hfe : firstError ((buckets.headD []).map encS) = none := by
        cases hopt : firstError ((buckets.headD []).map encS) with
        | none => rfl
        | some e3 =>
          have := (encCat_error_iff _ e3).mpr hopt
          rw [hc] at this
          exact absurd this (by simp)
      rw [firstError_append_none _ _ hfe]
      rw [hFI f opt]
      cases hf2 : encF f with
      | error e2 => simp [firstError]
      | ok bs2 =>
        simp only [firstError]
        cases hp : (encodeLoop opt encS encF buckets.tail fs).1 with
        | error e3 =>
          rw [← ih buckets.tail e]
          rw [hp]
          simp [Except.map]
        | ok out0 =>
          rw [← ih buckets.tail e]
          rw [hp]
          simp [Except.map]

theorem infoLoop_error_iff :
    ∀ (frags : List Fragment) (buckets : List (List SidxBox)) (e : String),
    infoLoop buckets frags = .error e ↔
      firstError (resLoop SidxBox.InfoRes Fragment.InfoRes buckets frags) = some e := by
  intro frags
  induction frags with
  | nil => intro buckets e; simp [infoLoop, resLoop, firstError]
  | cons f fs ih =>
    intro buckets e
    simp only [infoLoop, resLoop]
    cases hc : seqUnit ((buckets.headD []).map SidxBox.InfoRes) with
    | error e2 =>
      have hfe : firstError ((buckets.headD []).map SidxBox.InfoRes) = some e2 :=
        (seqUnit_error_iff _ e2).mp hc
      rw [firstError_append_some _ _ e2 hfe]
      simp
    | ok u =>
      have hfe : firstError ((buckets.headD []).map SidxBox.InfoRes) = none := by
        cases hopt : firstError ((buckets.headD []).map SidxBox.InfoRes) with
        | none => rfl
        | some e3 =>
          have := (seqUnit_error_iff _ e3).mpr hopt
          rw [hc] at this
          exact absurd this (by simp)
      rw [firstError_append_none _ _ hfe]
      cases hf2 : f.InfoRes with
      | error e2 => simp [firstError]
      | ok u2 =>
        simp only [firstError]
        exact ih buckets.tail e

theorem except_map_error_iff {α β : Type} (g : α → β) (x : Except String α) (e : String) :
    x.map g = .error e ↔ x = .error e := by
  cases x <;> simp [Except.map]

theorem Encode_error_iff (s : MediaSegment) (e : String) :
    (s.Encode).1 = .error e ↔
      firstError (boxResults StypBox.EncodeRes SidxBox.EncodeRes Fragment.EncodeRes s) =
        some e := by
  obtain ⟨st, sd, sbf, fr, eo, sp⟩ := s
  cases st with
  | none =>
    show (encodeLoop eo SidxBox.EncodeRes Fragment.EncodeRes sbf fr).1 = .error e ↔ _
    rw [show boxResults StypBox.EncodeRes SidxBox.EncodeRes Fragment.EncodeRes
      ⟨none, sd, sbf, fr, eo, sp⟩ =
        resLoop SidxBox.EncodeRes Fragment.EncodeRes sbf fr from rfl]
    exact encodeLoop_error_iff eo SidxBox.EncodeRes Fragment.EncodeRes (fun f o => rfl) fr sbf e
  | some stv =>
    cases h0 : stv.EncodeRes with
    | error e0 =>
      have h1 : (MediaSegment.Encode ⟨some stv, sd, sbf, fr, eo, sp⟩).1 = .error e0 := by
        simp only [MediaSegment.Encode, h0]
      have h2 : boxResults StypBox.EncodeRes SidxBox.EncodeRes Fragment.EncodeRes
          ⟨some stv, sd, sbf, fr, eo, sp⟩ =
          Except.error e0 :: resLoop SidxBox.EncodeRes Fragment.EncodeRes sbf fr := by
        simp [boxResults, h0]
      rw [h1, h2]
      simp [firstError]
    | ok bs0 =>
      have h1 : (MediaSegment.Encode ⟨some stv, sd, sbf, fr, eo, sp⟩).1 =
          ((encodeLoop eo SidxBox.EncodeRes Fragment.EncodeRes sbf fr).1).map
            (fun bs => bs0 ++ bs) := by
        simp only [MediaSegment.Encode, h0]
      have h2 : boxResults StypBox.EncodeRes SidxBox.EncodeRes Fragment.EncodeRes
          ⟨some stv, sd, sbf, fr, eo, sp⟩ =
          Except.ok bs0 :: resLoop SidxBox.EncodeRes Fragment.EncodeRes sbf fr := by
        simp [boxResults, h0]
      rw [h1, h2]
      simp only [firstError]
      rw [except_map_error_iff]
      exact encodeLoop_error_iff eo SidxBox.EncodeRes Fragment.EncodeRes (fun f o => rfl) fr sbf e

theorem EncodeSW_error_iff (s : MediaSegment) (e : String) :
    (s.EncodeSW).1 = .error e ↔
      firstError (boxResults StypBox.EncodeSWRes SidxBox.EncodeSWRes Fragment.EncodeSWRes s) =
        some e := by
  obtain ⟨st, sd, sbf, fr, eo, sp⟩ := s
  cases st with
  | none =>
    show (encodeLoop eo SidxBox.EncodeSWRes Fragment.EncodeSWRes sbf fr).1 = .error e ↔ _
    rw [show boxResults StypBox.EncodeSWRes SidxBox.EncodeSWRes Fragment.EncodeSWRes
      ⟨none, sd, sbf, fr, eo, sp⟩ =
        resLoop SidxBox.EncodeSWRes Fragment.EncodeSWRes sbf fr from rfl]
    exact encodeLoop_error_iff eo SidxBox.EncodeSWRes Fragment.EncodeSWRes (fun f o => rfl) fr sbf e
  | some stv =>
    cases h0 : stv.EncodeSWRes with
    | error e0 =>
      have h1 : (MediaSegment.EncodeSW ⟨some stv, sd, sbf, fr, eo, sp⟩).1 = .error e0 := by
        simp only [MediaSegment.EncodeSW, h0]
      have h2 : boxResults StypBox.EncodeSWRes SidxBox.EncodeSWRes Fragment.EncodeSWRes
          ⟨some stv, sd, sbf, fr, eo, sp⟩ =
          Except.error e0 :: resLoop SidxBox.EncodeSWRes Fragment.EncodeSWRes sbf fr := by
        simp [boxResults, h0]
      rw [h1, h2]
      simp [firstError]
    | ok bs0 =>
      have h1 : (MediaSegment.EncodeSW ⟨some stv, sd, sbf, fr, eo, sp⟩).1 =
          ((encodeLoop eo SidxBox.EncodeSWRes Fragment.EncodeSWRes sbf fr).1).map
            (fun bs => bs0 ++ bs) := by
        simp only [MediaSegment.EncodeSW, h0]
      have h2 : boxResults StypBox.EncodeSWRes SidxBox.EncodeSWRes Fragment.EncodeSWRes
          ⟨some stv, sd, sbf, fr, eo, sp⟩ =
          Except.ok bs0 :: resLoop SidxBox.EncodeSWRes Fragment.EncodeSWRes sbf fr := by
        simp [boxResults, h0]
      rw [h1, h2]
      simp only [firstError]
      rw [except_map_error_iff]
      exact encodeLoop_error_iff eo SidxBox.EncodeSWRes Fragment.EncodeSWRes (fun f o => rfl) fr sbf e

theorem Info_error_iff (s : MediaSegment) (e : String) :
    s.Info = .error e ↔
      firstError (boxResults StypBox.InfoRes SidxBox.InfoRes Fragment.InfoRes s) = some e := by
  obtain ⟨st, sd, sbf, fr, eo, sp⟩ := s
  cases st with
  | none =>
    show infoLoop sbf fr = .error e ↔ _
    rw [show boxResults StypBox.InfoRes SidxBox.InfoRes Fragment.InfoRes
      ⟨none, sd, sbf, fr, eo, sp⟩ = resLoop SidxBox.InfoRes Fragment.InfoRes sbf fr from rfl]
    exact infoLoop_error_iff fr sbf e
  | some stv =>
    cases h0 : stv.InfoRes with
    | error e0 =>
      have h1 : MediaSegment.Info ⟨some stv, sd, sbf, fr, eo, sp⟩ = .error e0 := by
        simp only [MediaSegment.Info, h0]
      have h2 : boxResults StypBox.InfoRes SidxBox.InfoRes Fragment.InfoRes
          ⟨some stv, sd, sbf, fr, eo, sp⟩ =
          Except.error e0 :: resLoop SidxBox.InfoRes Fragment.InfoRes sbf fr := by
        simp [boxResults, h0]
      rw [h1, h2]
      simp [firstError]
    | ok u =>
      have h1 : MediaSegment.Info ⟨some stv, sd, sbf, fr, eo, sp⟩ = infoLoop sbf fr := by
        simp only [MediaSegment.Info, h0]
      have h2 : boxResults StypBox.InfoRes SidxBox.InfoRes Fragment.InfoRes
          ⟨some stv, sd, sbf, fr, eo, sp⟩ =
          Except.ok u :: resLoop SidxBox.InfoRes Fragment.InfoRes sbf fr := by
        simp [boxResults, h0]
      rw [h1, h2]
      simp only [firstError]
      exact infoLoop_error_iff fr sbf e

/-- C8 amended: each of `Encode`, `EncodeSW` and `Info` stops at the
first failing box of the traversal (styp, then per fragment its sidx
bucket followed by the fragment) and returns that box's error verbatim
— the returned error is exactly the first per-box error, with no
wrapping context naming the box or fragment index added. -/
theorem encode_error_first_unwrapped (s : MediaSegment) (e : String) :
    ((s.Encode).1 = .error e ↔
      firstError (boxResults StypBox.EncodeRes SidxBox.EncodeRes Fragment.EncodeRes s) =
        some e) ∧
    ((s.EncodeSW).1 = .error e ↔
      firstError (boxResults StypBox.EncodeSWRes SidxBox.EncodeSWRes Fragment.EncodeSWRes s) =
        some e) ∧
    (s.Info = .error e ↔
      firstError (boxResults StypBox.InfoRes SidxBox.InfoRes Fragment.InfoRes s) = some e) :=
  ⟨Encode_error_iff s e, EncodeSW_error_iff s e, Info_error_iff s e⟩

/-- C8 counterexample: a failing fragment at index 0 and a failing
fragment at index 1 produce the identical error value "mock error",
returned unwrapped, so the error does not identify which box or which
fragment index failed (the index-0 fragment of the second segment even
encodes successfully). -/
theorem encode_error_context_cex :
    ((segOf [fragFail, fragBase]).EncodeSW).1 = .error "mock error" ∧
    ((segOf [fragBase, fragFail]).EncodeSW).1 = .error "mock error" ∧
    fragBase.EncodeSWRes = .ok [1, 2, 3, 4, 5, 6, 7, 8] ∧
    fragFail.EncodeSWRes = .error "mock error" :=
  ⟨rfl, rfl, rfl, rfl⟩

/-- Witness for the amended C8 at a concrete failing segment. -/
theorem encode_error_first_unwrapped_witness :
    firstError (boxResults StypBox.EncodeSWRes SidxBox.EncodeSWRes Fragment.EncodeSWRes
      (segOf [fragBase, fragFail])) = some "mock error" :=
  ((encode_error_first_unwrapped (segOf [fragBase, fragFail]) "mock error").2.1).mp rfl
